import Mathlib

/-!
Shallow embedding of `sync.go` (juicesync's diff-and-replicate engine) and
verification of its specification claims.

Modelling conventions:
* Go strings are Lean `String`s; Go's byte-lexicographic comparison agrees
  with Lean's code-point order on the UTF-8 strings we model.
* Go channels of `*object.Object` become `List (Option Obj)`: `some o` is a
  record, `none` is the nil failure sentinel, end of the list is channel close.
* The paginated listing API is a pure function of (prefix, marker, limit);
  the paging loop takes a fuel argument bounding the number of `List` calls
  (the Go loop can run forever against a pathological backend).
* Object payloads are `List Nat` byte sequences; ranged reads and writes are
  `Except`-valued.  Local temp-file operations (create/remove/write/seek) are
  modelled as an event trace and treated as infallible.
* The four `uint64` counters are modelled as `Nat`; within a run each counter
  is bounded by the (finite) number of records processed, far below `2^64`,
  so wraparound is unreachable and dropped.  The `uint64` subtraction in the
  progress bar, which can genuinely wrap, keeps an explicit `% 2^64`.
-/

/-- Model of `object.Object`: the fields `sync.go` uses (`Key`, `Size`). -/
structure Obj where
  key : String
  size : Int
  deriving Repr, DecidableEq

/-- Constant `MaxResults = 10240`: max number of keys per listing request. -/
def MaxResults : Nat := 10240

/-- Constant `maxBlock = 10 << 20`: the 10 MiB spill threshold. -/
def maxBlock : Nat := 10 <<< 20

/-- The listing side of `object.ObjectStorage`:
`List(prefix, marker, limit)` returns one sorted page or an error. -/
def ListFn : Type := String → String → Nat → Except String (List Obj)

/-- Outcome of the producer goroutine spawned by `Iterate`. -/
inductive IterOutcome where
  /-- Loop ended by an empty page or by the `end` bound: channel closed, no sentinel. -/
  | ok (emitted : List Obj)
  /-- A later `List` call failed: records, then one nil sentinel, then close. -/
  | failed (emitted : List Obj)
  /-- The call `logger.Fatalf("The keys are out of order ...")` aborted the process:
  `lastkey` was the reference key and `key` the offending record's key. -/
  | fatal (emitted : List Obj) (lastkey key : String)
  /-- Fuel for `List` calls ran out (model artifact for unbounded backends). -/
  | outOfFuel (emitted : List Obj)
  deriving Repr, DecidableEq

/-- The records a producer outcome emitted on the channel, in order. -/
def IterOutcome.emitted : IterOutcome → List Obj
  | .ok es => es
  | .failed es => es
  | .fatal es _ _ => es
  | .outOfFuel es => es

/-- The raw channel contents for a producer outcome: `some` per record and a
trailing `none` exactly when the listing failed mid-stream. -/
def IterOutcome.stream : IterOutcome → List (Option Obj)
  | .ok es => es.map some
  | .failed es => es.map some ++ [none]
  | .fatal es _ _ => es.map some
  | .outOfFuel es => es.map some

/-- Result of the inner `for _, obj := range objs` loop of `Iterate`. -/
inductive PageOut where
  /-- The ordering check `key != "" && key <= lastkey` fired: fatal abort. -/
  | fatal (emitted : List Obj) (lastkey key : String)
  /-- The bound check `end != "" && key >= end` fired: `break END`. -/
  | stopEnd (emitted : List Obj)
  /-- Page fully consumed; `lastkey` holds its final value. -/
  | next (emitted : List Obj) (lastkey : String)
  deriving Repr, DecidableEq

/-- The records one page-processing step emitted. -/
def PageOut.emitted : PageOut → List Obj
  | .fatal es _ _ => es
  | .stopEnd es => es
  | .next es _ => es

/-- Lines 42-52 of `sync.go`: walk one listing page, checking order against
`lastkey`, honouring the exclusive `end` bound, and emitting records. -/
def pageStep (endk : String) : List Obj → String → PageOut
  | [], lk => .next [] lk
  | obj :: rest, lk =>
    if obj.key ≠ "" ∧ obj.key ≤ lk then .fatal [] lk obj.key
    else if endk ≠ "" ∧ endk ≤ obj.key then .stopEnd []
    else
      match pageStep endk rest obj.key with
      | .fatal es lk0 k => .fatal (obj :: es) lk0 k
      | .stopEnd es => .stopEnd (obj :: es)
      | .next es lk' => .next (obj :: es) lk'

/-- Prepend already-emitted records to a producer outcome. -/
def IterOutcome.prepend (es : List Obj) : IterOutcome → IterOutcome
  | .ok l => .ok (es ++ l)
  | .failed l => .failed (es ++ l)
  | .fatal l a b => .fatal (es ++ l) a b
  | .outOfFuel l => .outOfFuel (es ++ l)

/-- Lines 39-62 of `sync.go`: the producer goroutine's paging loop.
`fuel` bounds the number of follow-up `store.List` calls. -/
def iterLoop (store : ListFn) (endk : String) : Nat → List Obj → String → IterOutcome
  | _, [], _ => .ok []
  | 0, _ :: _, _ => .outOfFuel []
  | fuel + 1, obj :: objs, lk =>
    match pageStep endk (obj :: objs) lk with
    | .fatal es lk0 k => .fatal es lk0 k
    | .stopEnd es => .ok es
    | .next es lk' =>
      match store "" lk' MaxResults with
      | .error _ => .failed es
      | .ok objs' => (iterLoop store endk fuel objs' lk').prepend es

/-- Model of `Iterate` (lines 31-65): issue the first `store.List("", marker, MaxResults)`;
on error return it, otherwise run the producer loop starting from `lastkey = ""`. -/
def Iterate (store : ListFn) (marker endk : String) (fuel : Nat) :
    Except String IterOutcome :=
  match store "" marker MaxResults with
  | .error e => .error e
  | .ok objs => .ok (iterLoop store endk fuel objs "")

/-- Observable result of `doSync`'s merge-join loop (lines 139-164).
`todo` records the objects sent to the work queue in send order, `found`
and `missing` are the final values of the shared counters, and `consumed`
records the non-sentinel source records the loop body processed. -/
structure SyncResult where
  todo : List Obj
  found : Nat
  missing : Nat
  consumed : List Obj
  deriving Repr, DecidableEq

/-- Lines 148-159 of `sync.go`: the inner
`for hasMore && obj.Key > dstkey` advancement loop.
Returns the remaining destination stream, the new `dstkey` and `hasMore`,
and whether a destination nil sentinel caused `break OUT`. -/
def advanceDst (srckey : String) (dst : List (Option Obj)) (dstkey : String) :
    List (Option Obj) × String × Bool × Bool :=
  if dstkey < srckey then
    match dst with
    | [] => ([], dstkey, false, false)
    | none :: rest => (rest, dstkey, true, true)
    | some d :: rest => advanceDst srckey rest d.key
  else (dst, dstkey, true, false)
termination_by dst.length
decreasing_by simp

/-- Lines 141-164 of `sync.go`: the merge-join over the two listing streams,
threading the `found` and `missing` counters. -/
def doSyncLoop : List (Option Obj) → List (Option Obj) → String → Bool →
    Nat → Nat → SyncResult
  | [], _, _, _, f, m => ⟨[], f, m, []⟩
  | none :: _, _, _, _, f, m => ⟨[], f, m, []⟩
  | some obj :: srest, dst, dstkey, hasMore, f, m =>
    let f := f + 1
    let adv := if hasMore ∧ dstkey < obj.key
               then advanceDst obj.key dst dstkey
               else (dst, dstkey, hasMore, false)
    let dst' := adv.1
    let dk' := adv.2.1
    let hm' := adv.2.2.1
    let broke := adv.2.2.2
    if broke then ⟨[], f, m, [obj]⟩
    else if obj.key < dk' ∨ hm' = false then
      let r := doSyncLoop srest dst' dk' hm' f (m + 1)
      ⟨obj :: r.todo, r.found, r.missing, obj :: r.consumed⟩
    else
      let r := doSyncLoop srest dst' dk' hm' f m
      ⟨r.todo, r.found, r.missing, obj :: r.consumed⟩

/-- Model of `doSync` (lines 115-167): run the merge-join from `dstkey = ""`,
`hasMore = true` and zeroed package-level counters. -/
def doSync (srckeys dstkeys : List (Option Obj)) : SyncResult :=
  doSyncLoop srckeys dstkeys "" true 0 0

/-- Temp-file operations performed by the spill path of `replicate`,
in program order (`ioutil.TempFile`, `os.Remove`, `f.Write`/`io.Copy`,
`f.Seek`). -/
inductive TempEvent where
  | create
  | remove
  | write (bytes : Nat)
  | seek
  deriving Repr, DecidableEq

/-- The read/existence/write side of `object.ObjectStorage` used by
`replicate`.  `get key off len` models `Get(key, off, len)` (`len = -1`
means to end of object): the outer `Except` is the `Get` error, the inner
one the error of draining the returned reader (`ioutil.ReadAll` / `io.Copy`).
`existsErr` models `Exists(key)` returning a non-nil error when the object
is gone.  `put` models `Put(key, reader)` on the destination. -/
structure ObjectStorage where
  get : String → Int → Int → Except String (Except String (List Nat))
  existsErr : String → Option String
  put : String → List Nat → Except String Unit

/-- Observable trace of a successful `replicate` call: the ranged `Get`
requests issued against the source (offset, length), the temp-file events,
and the payload handed to `dst.Put` (none when `replicate` returned early
because the object had vanished at the source). -/
structure RepResult where
  reads : List (Int × Int)
  tempOps : List TempEvent
  written : Option (List Nat)
  deriving Repr, DecidableEq

/-- Model of `replicate` (lines 67-112), returning the error the Go function returns
or the trace of a successful run.  Temp-file creation, writes and seeking
are modelled as infallible local operations recorded in the trace. -/
def replicate (src dst : ObjectStorage) (obj : Obj) : Except String RepResult :=
  let key := obj.key
  let firstBlock : Int := if obj.size > (maxBlock : Int) then (maxBlock : Int) else -1
  match src.get key 0 firstBlock with
  | .error e =>
    if (src.existsErr key).isSome then .ok ⟨[(0, firstBlock)], [], none⟩
    else .error e
  | .ok reader =>
    match reader with
    | .error err => .error err
    | .ok data =>
      if firstBlock = -1 then
        match dst.put key data with
        | .error e => .error e
        | .ok _ => .ok ⟨[(0, firstBlock)], [], some data⟩
      else
        match src.get key (data.length : Int) (-1) with
        | .error e => .error e
        | .ok reader2 =>
          match reader2 with
          | .error e => .error e
          | .ok rest =>
            let payload := data ++ rest
            match dst.put key payload with
            | .error e => .error e
            | .ok _ =>
              .ok ⟨[(0, firstBlock), ((data.length : Int), -1)],
                   [.create, .remove, .write data.length, .write rest.length, .seek],
                   some payload⟩

/-- Slice `[off, off+len)` of a payload; `len = -1` means to the end.
This is the ideal ranged-read semantics of a store adapter (spec section 6). -/
def sliceContent (c : List Nat) (off len : Int) : List Nat :=
  let c' := c.drop off.toNat
  if len < 0 then c' else c'.take len.toNat

/-- An ideal, failure-free store adapter over a map from keys to payloads:
`Get` returns the requested slice, `Exists` errors exactly when the key is
absent, `Put` always succeeds. -/
def storeOf (objects : String → Option (List Nat)) : ObjectStorage where
  get := fun key off len =>
    match objects key with
    | none => .error "not found"
    | some c => .ok (.ok (sliceContent c off len))
  existsErr := fun key => if (objects key).isSome then none else some "not found"
  put := fun _ _ => .ok ()

/-- Lines 122-135 of `sync.go`: aggregate effect of the worker pool on the
`copied` and `failed` counters, one `replicate` call per queued object. -/
def workerRun (rep : Obj → Except String RepResult) (objs : List Obj) : Nat × Nat :=
  objs.foldl
    (fun cf o =>
      match rep o with
      | .ok _ => (cf.1 + 1, cf.2)
      | .error _ => (cf.1, cf.2 + 1))
    (0, 0)

/-- The modulus of Go's `uint64` arithmetic, two to the 64th. -/
def M64 : Nat := 2 ^ 64

/-- One iteration of the `showProgress` display loop (lines 172-194), as a
function of the counter values it loads.  Go's `uint64` subtraction wraps
modulo `2^64`; its division panics when the divisor is zero, modelled as
`none`.  The float throughput estimate (wall-clock time) is not modelled. -/
def showProgressStep (found missing copied : Nat) : Option (List Char × Nat) :=
  let same := (found + M64 - missing % M64) % M64
  let width := 80
  if found = 0 then none
  else
    let a := width * same % M64 / found
    let b := width * copied % M64 / found
    let bar := (List.range 80).map fun i =>
      if i < a then '=' else if i < a + b then '+' else ' '
    let pct := ((found + M64 - missing % M64) % M64 + copied) % M64 * 100 % M64 / found
    some (bar, pct)

/-- How a run of `Sync` ends: a fatal ordering abort kills the process,
otherwise `Sync` returns either a non-nil error or nil after `doSync`. -/
inductive SyncOutcome where
  | aborted
  | returnedError (e : String)
  | completed (r : SyncResult)
  deriving Repr, DecidableEq

/-- Whether a producer outcome is the fatal ordering abort. -/
def IterOutcome.isFatal : IterOutcome → Bool
  | .fatal _ _ _ => true
  | _ => false

/-- Model of `Sync` (lines 198-217): start both iterators (propagating only their
first-page errors), then run `doSync` over the two streams.  A fatal
ordering violation in either producer aborts the whole process.  Fuel
exhaustion in a producer is treated as end of its stream (model artifact). -/
def Sync (src dst : ListFn) (marker endk : String) (fuel : Nat) : SyncOutcome :=
  match Iterate src marker endk fuel with
  | .error e => .returnedError e
  | .ok outA =>
    match Iterate dst marker endk fuel with
    | .error e => .returnedError e
    | .ok outB =>
      if outA.isFatal ∨ outB.isFatal then .aborted
      else .completed (doSync outA.stream outB.stream)

/-- The keys of a list of records, in order. -/
def keysOf (l : List Obj) : List String := l.map Obj.key

/-- A listing is strictly sorted when its keys are pairwise strictly
increasing (byte-lexicographically). -/
def StrictSorted (l : List Obj) : Prop := (keysOf l).Pairwise (· < ·)

/-- The ordering invariant `Iterate` actually enforces on its output: every
emitted record's nonempty key strictly exceeds the key of the immediately
preceding emitted record, starting from reference `lk`; an empty key is
exempt and becomes the new reference. -/
def chainOk (lk : String) : List Obj → Bool
  | [] => true
  | o :: rest => (o.key == "" || decide (lk < o.key)) && chainOk o.key rest

/-- The value of `lastkey` after emitting `es` starting from `lk`:
the last emitted key, or `lk` when nothing was emitted. -/
def lastKeyAfter (lk : String) (es : List Obj) : String :=
  es.foldl (fun _ o => o.key) lk

/-- A source adapter whose reads always fail but whose existence check also
fails (the object is gone): used to witness the vanished-object path. -/
def goneStore : ObjectStorage where
  get := fun _ _ _ => .error "boom"
  existsErr := fun _ => some "gone"
  put := fun _ _ => .ok ()

/-- A one-object map used as a concrete store content in witnesses. -/
def smallObjects : String → Option (List Nat) :=
  fun k => if k = "k" then some [1, 2, 3] else none

/-- A large payload exceeding the 10 MiB spill threshold by one byte. -/
def bigContent : List Nat := List.replicate (maxBlock + 1) 0

/-- A one-object map holding `bigContent` under every key. -/
def bigObjects : String → Option (List Nat) := fun _ => some bigContent

/-- Claim C7: one iteration of the `showProgress` display loop is
well-defined exactly when the `found` counter is positive; the unguarded
`uint64` divisions by `found` make the iteration undefined (a Go run-time
panic) when `found = 0`. -/
theorem c7_progress_defined_iff_found_pos (f m c : Nat) :
    (showProgressStep f m c).isSome = true ↔ 0 < f := by
  by_cases h : f = 0 <;> simp [showProgressStep, h, Nat.pos_iff_ne_zero]

/-- Claim C5: when the initial source read fails, `replicate` re-checks
existence; a failing existence check (object gone) yields success with no
destination write, so the worker pool increments `copied`, not `failed`;
otherwise the original read error is returned. -/
theorem c5_vanished_source (src dst : ObjectStorage) (obj : Obj) (e : String)
    (hget : src.get obj.key 0
        (if obj.size > (maxBlock : Int) then (maxBlock : Int) else -1) = .error e) :
    ((src.existsErr obj.key).isSome →
        replicate src dst obj =
          .ok ⟨[(0, if obj.size > (maxBlock : Int) then (maxBlock : Int) else -1)],
               [], none⟩ ∧
        workerRun (replicate src dst) [obj] = (1, 0)) ∧
    (src.existsErr obj.key = none →
        replicate src dst obj = .error e) := by
  constructor
  · intro h
    have hrep : replicate src dst obj =
        .ok ⟨[(0, if obj.size > (maxBlock : Int) then (maxBlock : Int) else -1)],
             [], none⟩ := by
      simp [replicate, hget, h]
    exact ⟨hrep, by simp [workerRun, hrep]⟩
  · intro h
    simp [replicate, hget, h]

/-- Claim C5 witness: a concrete store whose reads fail and whose object is
gone; replication is a benign no-op and the pool counts it as copied. -/
theorem c5_witness :
    replicate goneStore goneStore ⟨"k", 3⟩ = .ok ⟨[(0, -1)], [], none⟩ ∧
    workerRun (replicate goneStore goneStore) [⟨"k", 3⟩] = (1, 0) := by
  have h := (c5_vanished_source goneStore goneStore ⟨"k", 3⟩ "boom" rfl).1 (by simp [goneStore])
  have hcond : ((⟨"k", 3⟩ : Obj).size > (maxBlock : Int)) = False := by
    decide
  constructor
  · have := h.1
    simpa [hcond] using this
  · exact h.2

/-- Claim C4: an object at or below the spill threshold is replicated via a
single ranged read covering the whole object and a single destination write,
with no temporary file, and the written payload is byte-identical to the
source content. -/
theorem c4_small_object (objects dobjects : String → Option (List Nat))
    (obj : Obj) (content : List Nat)
    (hc : objects obj.key = some content)
    (hsize : obj.size = (content.length : Int))
    (hsmall : obj.size ≤ (maxBlock : Int)) :
    replicate (storeOf objects) (storeOf dobjects) obj =
      .ok ⟨[(0, -1)], [], some content⟩ := by
  have hnot : ¬ obj.size > (maxBlock : Int) := not_lt.mpr hsmall
  simp [replicate, storeOf, hc, hnot, sliceContent]

/-- Claim C4 witness: a three-byte object replicates with one whole-object
read, no temp file, and identical content. -/
theorem c4_witness :
    replicate (storeOf smallObjects) (storeOf smallObjects) ⟨"k", 3⟩ =
      .ok ⟨[(0, -1)], [], some [1, 2, 3]⟩ :=
  c4_small_object smallObjects smallObjects ⟨"k", 3⟩ [1, 2, 3]
    (by simp [smallObjects]) (by simp) (by decide)

/-- Claim C3: an object strictly larger than the spill threshold is
replicated by reading exactly the leading `maxBlock` bytes into memory,
issuing one further ranged read `[maxBlock, end)` streamed into a temp file
that is removed immediately after creation (before any byte is written to
it), and the payload written to the destination is byte-identical to the
source content, boundary byte included. -/
theorem c3_large_object (objects dobjects : String → Option (List Nat))
    (obj : Obj) (content : List Nat)
    (hc : objects obj.key = some content)
    (hsize : obj.size = (content.length : Int))
    (hbig : (maxBlock : Int) < obj.size) :
    replicate (storeOf objects) (storeOf dobjects) obj =
      .ok ⟨[(0, (maxBlock : Int)), ((maxBlock : Int), -1)],
           [.create, .remove, .write maxBlock,
            .write (content.length - maxBlock), .seek],
           some content⟩ := by
  have hlen : maxBlock < content.length := by
    rw [hsize] at hbig
    exact_mod_cast hbig
  have hnn : ¬ ((maxBlock : Int) < 0) := not_lt.mpr (Int.natCast_nonneg maxBlock)
  have hdata : sliceContent content 0 (maxBlock : Int) = content.take maxBlock := by
    simp [sliceContent, hnn]
  have hdlen : (content.take maxBlock).length = maxBlock := by
    simp [List.length_take, Nat.min_eq_left (Nat.le_of_lt hlen)]
  have hrest : sliceContent content (maxBlock : Int) (-1) = content.drop maxBlock := by
    simp [sliceContent]
  have hneg : ¬ ((maxBlock : Int) = -1) := by decide
  have hrlen : (content.drop maxBlock).length = content.length - maxBlock := by
    simp
  simp only [replicate, storeOf, hc, if_pos hbig, if_neg hneg, hdata, hdlen, hrest,
    hrlen, List.take_append_drop]

/-- Claim C3 witness: a `maxBlock + 1`-byte object spills: two ranged reads,
temp file removed right after creation, byte-identical payload. -/
theorem c3_witness :
    replicate (storeOf bigObjects) (storeOf bigObjects) ⟨"k", (maxBlock : Int) + 1⟩ =
      .ok ⟨[(0, (maxBlock : Int)), ((maxBlock : Int), -1)],
           [.create, .remove, .write maxBlock,
            .write (bigContent.length - maxBlock), .seek],
           some bigContent⟩ :=
  c3_large_object bigObjects bigObjects ⟨"k", (maxBlock : Int) + 1⟩ bigContent
    rfl (by simp [bigContent]) (lt_add_one _)

/-- Claim C10: a source record with an empty key consumed while the
destination cursor is still the initial `""` and `hasMore` is still true
performs no destination advancement (the stream and cursor are passed on
untouched), is counted in `found`, and is never enqueued: the run is the
run on the remaining records, with only `consumed` extended. -/
theorem c10_empty_key_treated_present (obj : Obj) (srest dst : List (Option Obj))
    (f m : Nat) (hk : obj.key = "") :
    doSyncLoop (some obj :: srest) dst "" true f m =
      { doSyncLoop srest dst "" true (f + 1) m with
        consumed := obj :: (doSyncLoop srest dst "" true (f + 1) m).consumed } := by
  simp [doSyncLoop, hk]

/-- Claim C10 witness: an empty-key source record is not enqueued even
though the destination holds no object with that key. -/
theorem c10_witness :
    doSyncLoop [some ⟨"", 5⟩] [some ⟨"a", 1⟩] "" true 0 0 =
      { doSyncLoop ([] : List (Option Obj)) [some ⟨"a", 1⟩] "" true 1 0 with
        consumed := (⟨"", 5⟩ : Obj) ::
          (doSyncLoop ([] : List (Option Obj)) [some ⟨"a", 1⟩] "" true 1 0).consumed } :=
  c10_empty_key_treated_present ⟨"", 5⟩ [] [some ⟨"a", 1⟩] 0 0 rfl

/-- Counting discipline of the merge-join loop: `found` grows by the number
of consumed records, `missing` by the number of enqueued objects, and the
enqueued objects form a sublist of the consumed ones. -/
theorem doSyncLoop_counts (src : List (Option Obj)) :
    ∀ dst dstkey hm f m,
    ((doSyncLoop src dst dstkey hm f m).found
        = f + (doSyncLoop src dst dstkey hm f m).consumed.length) ∧
    ((doSyncLoop src dst dstkey hm f m).missing
        = m + (doSyncLoop src dst dstkey hm f m).todo.length) ∧
    (doSyncLoop src dst dstkey hm f m).todo.Sublist
        (doSyncLoop src dst dstkey hm f m).consumed := by
  induction src with
  | nil => exact fun dst dstkey hm f m => ⟨rfl, rfl, List.nil_sublist _⟩
  | cons x srest ih =>
    intro dst dstkey hm f m
    cases x with
    | none => exact ⟨rfl, rfl, List.nil_sublist _⟩
    | some obj =>
      simp only [doSyncLoop]
      generalize (if hm ∧ dstkey < obj.key then advanceDst obj.key dst dstkey
        else (dst, dstkey, hm, false)) = adv
      obtain ⟨dst', dk', hm', broke⟩ := adv
      cases broke with
      | true =>
        simp only [if_pos]
        exact ⟨rfl, rfl, List.nil_sublist _⟩
      | false =>
        by_cases hcond : obj.key < dk' ∨ hm' = false
        · obtain ⟨h1, h2, h3⟩ := ih dst' dk' hm' (f + 1) (m + 1)
          simp only [Bool.false_eq_true, if_false, if_pos hcond]
          exact ⟨by simp [h1]; omega, by simp [h2]; omega, h3.cons₂ obj⟩
        · obtain ⟨h1, h2, h3⟩ := ih dst' dk' hm' (f + 1) m
          simp only [Bool.false_eq_true, if_false, if_neg hcond]
          exact ⟨by simp [h1]; omega, h2, h3.cons obj⟩

/-- Claim C9: in `doSync`'s loop, `found` rises by exactly one per
non-sentinel source record consumed and `missing` by exactly one per object
enqueued; the enqueued objects are a sublist of the consumed ones, so the
increase of `missing` never exceeds that of `found`; a source failure
sentinel stops the loop incrementing neither counter. -/
theorem c9_counter_discipline (src dst : List (Option Obj)) (dstkey : String)
    (hm : Bool) (f m : Nat) :
    (doSyncLoop src dst dstkey hm f m).found
        = f + (doSyncLoop src dst dstkey hm f m).consumed.length ∧
    (doSyncLoop src dst dstkey hm f m).missing
        = m + (doSyncLoop src dst dstkey hm f m).todo.length ∧
    (doSyncLoop src dst dstkey hm f m).todo.Sublist
        (doSyncLoop src dst dstkey hm f m).consumed ∧
    (doSyncLoop src dst dstkey hm f m).missing + f
        ≤ (doSyncLoop src dst dstkey hm f m).found + m ∧
    doSyncLoop (none :: src) dst dstkey hm f m = ⟨[], f, m, []⟩ := by
  obtain ⟨h1, h2, h3⟩ := doSyncLoop_counts src dst dstkey hm f m
  have hle := h3.length_le
  exact ⟨h1, h2, h3, by omega, rfl⟩

/-- Claim C6: `Sync` returns a non-nil error exactly when the very first
listing page of the source or of the destination cannot be fetched;
mid-stream listing failures (nil sentinels in a stream) never surface as a
returned error. -/
theorem c6_sync_error_iff (src dst : ListFn) (marker endk : String) (fuel : Nat) :
    (∃ e, Sync src dst marker endk fuel = .returnedError e) ↔
      ((∃ e, src "" marker MaxResults = .error e) ∨
       (∃ e, dst "" marker MaxResults = .error e)) := by
  unfold Sync Iterate
  rcases h1 : src "" marker MaxResults with e1 | p <;>
    rcases h2 : dst "" marker MaxResults with e2 | q <;>
      simp [h1, h2]
  split <;> simp

/-- No string is strictly below the empty string. -/
theorem String.not_lt_empty (s : String) : ¬ s < "" := by
  simp [String.lt_iff_toList_lt]

/-- Splitting `chainOk` across an append at the last emitted key. -/
theorem chainOk_append (lk : String) (es more : List Obj) :
    chainOk lk (es ++ more) = (chainOk lk es && chainOk (lastKeyAfter lk es) more) := by
  induction es generalizing lk with
  | nil => simp [chainOk, lastKeyAfter]
  | cons o rest ih =>
    simp [chainOk, lastKeyAfter, ih o.key, Bool.and_assoc, List.foldl_cons]

/-- Composition of `lastKeyAfter` across an append. -/
theorem lastKeyAfter_append (lk : String) (es more : List Obj) :
    lastKeyAfter lk (es ++ more) = lastKeyAfter (lastKeyAfter lk es) more := by
  simp [lastKeyAfter, List.foldl_append]


/-- Stepping `lastKeyAfter` through a cons. -/
theorem lastKeyAfter_cons (lk : String) (o : Obj) (es : List Obj) :
    lastKeyAfter lk (o :: es) = lastKeyAfter o.key es := rfl

/-- Everything `pageStep` guarantees about one page: the emitted records
satisfy the enforced ordering chain from `lastkey`; a fully consumed page
reports the last emitted key; a fatal abort reports a genuine violation
(nonempty key at or below the reference key, which is the last emitted key)
and the offending record is not emitted; and with a nonempty `end` bound
every emitted key is below it. -/
theorem pageStep_spec (endk : String) (objs : List Obj) : ∀ lk,
    chainOk lk (pageStep endk objs lk).emitted = true ∧
    (∀ es lk', pageStep endk objs lk = .next es lk' → lk' = lastKeyAfter lk es) ∧
    (∀ es lk0 k, pageStep endk objs lk = .fatal es lk0 k →
        k ≠ "" ∧ k ≤ lk0 ∧ lk0 = lastKeyAfter lk es) ∧
    (endk ≠ "" → ∀ o ∈ (pageStep endk objs lk).emitted, o.key < endk) := by
  induction objs with
  | nil =>
    intro lk
    refine ⟨rfl, ?_, ?_, ?_⟩
    · intro es lk' h
      cases h
      rfl
    · intro es lk0 k h
      cases h
    · intro _ o ho
      cases ho
  | cons obj rest ih =>
    intro lk
    by_cases h1 : obj.key ≠ "" ∧ obj.key ≤ lk
    · have hstep : pageStep endk (obj :: rest) lk = .fatal [] lk obj.key := by
        simp only [pageStep]
        rw [if_pos h1]
      refine ⟨?_, ?_, ?_, ?_⟩
      · rw [hstep]; rfl
      · intro es lk' h
        rw [hstep] at h
        cases h
      · intro es lk0 k h
        rw [hstep] at h
        cases h
        exact ⟨h1.1, h1.2, rfl⟩
      · intro _ o ho
        rw [hstep] at ho
        cases ho
    · by_cases h2 : endk ≠ "" ∧ endk ≤ obj.key
      · have hstep : pageStep endk (obj :: rest) lk = .stopEnd [] := by
          simp only [pageStep]
          rw [if_neg h1, if_pos h2]
        refine ⟨?_, ?_, ?_, ?_⟩
        · rw [hstep]; rfl
        · intro es lk' h
          rw [hstep] at h
          cases h
        · intro es lk0 k h
          rw [hstep] at h
          cases h
        · intro _ o ho
          rw [hstep] at ho
          cases ho
      · obtain ⟨ihc, ihn, ihf, ihe⟩ := ih obj.key
        have hfirst : (obj.key == "" || decide (lk < obj.key)) = true := by
          rcases not_and_or.mp h1 with h | h
          · have hk : obj.key = "" := by simpa using h
            simp [hk]
          · simp [not_le.mp h]
        have hbound : endk ≠ "" → obj.key < endk := by
          intro he
          rcases not_and_or.mp h2 with h | h
          · exact absurd he h
          · exact not_le.mp h
        have hstep : pageStep endk (obj :: rest) lk =
            match pageStep endk rest obj.key with
            | .fatal es lk0 k => .fatal (obj :: es) lk0 k
            | .stopEnd es => .stopEnd (obj :: es)
            | .next es lk' => .next (obj :: es) lk' := by
          simp only [pageStep]
          rw [if_neg h1, if_neg h2]
        rcases hps : pageStep endk rest obj.key with ⟨es, lk0, k⟩ | es | ⟨es, lk'⟩ <;>
          rw [hps] at hstep
        · have hstep2 : pageStep endk (obj :: rest) lk = .fatal (obj :: es) lk0 k := by
            rw [hstep]
          rw [hps] at ihc
          simp only [PageOut.emitted] at ihc
          refine ⟨?_, ?_, ?_, ?_⟩
          · rw [hstep2]
            simp only [PageOut.emitted, chainOk, Bool.and_eq_true]
            exact ⟨hfirst, ihc⟩
          · intro es2 lk2 h
            rw [hstep2] at h
            cases h
          · intro es2 lk2 k2 h
            rw [hstep2] at h
            cases h
            obtain ⟨ha, hb, hc⟩ := ihf es lk0 k hps
            exact ⟨ha, hb, by rw [hc, lastKeyAfter_cons]⟩
          · intro he o ho
            rw [hstep2] at ho
            simp only [PageOut.emitted] at ho
            rcases List.mem_cons.mp ho with h | h
            · rw [h]
              exact hbound he
            · refine ihe he o ?_
              rw [hps]
              simpa [PageOut.emitted] using h
        · have hstep2 : pageStep endk (obj :: rest) lk = .stopEnd (obj :: es) := by
            rw [hstep]
          rw [hps] at ihc
          simp only [PageOut.emitted] at ihc
          refine ⟨?_, ?_, ?_, ?_⟩
          · rw [hstep2]
            simp only [PageOut.emitted, chainOk, Bool.and_eq_true]
            exact ⟨hfirst, ihc⟩
          · intro es2 lk2 h
            rw [hstep2] at h
            cases h
          · intro es2 lk2 k2 h
            rw [hstep2] at h
            cases h
          · intro he o ho
            rw [hstep2] at ho
            simp only [PageOut.emitted] at ho
            rcases List.mem_cons.mp ho with h | h
            · rw [h]
              exact hbound he
            · refine ihe he o ?_
              rw [hps]
              simpa [PageOut.emitted] using h
        · have hstep2 : pageStep endk (obj :: rest) lk = .next (obj :: es) lk' := by
            rw [hstep]
          rw [hps] at ihc
          simp only [PageOut.emitted] at ihc
          refine ⟨?_, ?_, ?_, ?_⟩
          · rw [hstep2]
            simp only [PageOut.emitted, chainOk, Bool.and_eq_true]
            exact ⟨hfirst, ihc⟩
          · intro es2 lk2 h
            rw [hstep2] at h
            cases h
            rw [ihn es lk' hps, lastKeyAfter_cons]
          · intro es2 lk2 k2 h
            rw [hstep2] at h
            cases h
          · intro he o ho
            rw [hstep2] at ho
            simp only [PageOut.emitted] at ho
            rcases List.mem_cons.mp ho with h | h
            · rw [h]
              exact hbound he
            · refine ihe he o ?_
              rw [hps]
              simpa [PageOut.emitted] using h

/-- Emitted records of a prepended outcome. -/
theorem IterOutcome.emitted_prepend (es : List Obj) (o : IterOutcome) :
    (o.prepend es).emitted = es ++ o.emitted := by
  cases o <;> rfl

/-- A prepended outcome is fatal exactly when the underlying outcome is. -/
theorem IterOutcome.prepend_eq_fatal (es l : List Obj) (a b : String) (o : IterOutcome) :
    o.prepend es = .fatal l a b ↔ ∃ l2, o = .fatal l2 a b ∧ l = es ++ l2 := by
  cases o <;> simp [IterOutcome.prepend] <;> aesop

/-- Everything the paging loop guarantees, for any fuel, page and reference
key: the emitted stream satisfies the enforced ordering chain; a fatal
outcome records a genuine violation relative to the last emitted key; and
with a nonempty `end` bound every emitted key stays below it. -/
theorem iterLoop_spec (store : ListFn) (endk : String) : ∀ fuel objs lk,
    chainOk lk (iterLoop store endk fuel objs lk).emitted = true ∧
    (∀ es lk0 k, iterLoop store endk fuel objs lk = .fatal es lk0 k →
        k ≠ "" ∧ k ≤ lk0 ∧ lk0 = lastKeyAfter lk es) ∧
    (endk ≠ "" → ∀ o ∈ (iterLoop store endk fuel objs lk).emitted, o.key < endk) := by
  intro fuel
  induction fuel with
  | zero =>
    intro objs lk
    cases objs with
    | nil =>
      refine ⟨rfl, ?_, ?_⟩
      · intro es lk0 k h
        cases h
      · intro _ o ho
        cases ho
    | cons a as =>
      refine ⟨rfl, ?_, ?_⟩
      · intro es lk0 k h
        cases h
      · intro _ o ho
        cases ho
  | succ fuel ih =>
    intro objs lk
    cases objs with
    | nil =>
      refine ⟨rfl, ?_, ?_⟩
      · intro es lk0 k h
        cases h
      · intro _ o ho
        cases ho
    | cons a as =>
      obtain ⟨pc, pn, pf, pe⟩ := pageStep_spec endk (a :: as) lk
      rcases hps : pageStep endk (a :: as) lk with ⟨es, lk0, k⟩ | es | ⟨es, lk'⟩ <;>
        rw [hps] at pc <;> simp only [PageOut.emitted] at pc
      · have hstep : iterLoop store endk (fuel + 1) (a :: as) lk = .fatal es lk0 k := by
          simp only [iterLoop, hps]
        refine ⟨?_, ?_, ?_⟩
        · rw [hstep]
          exact pc
        · intro es2 lk2 k2 h
          rw [hstep] at h
          cases h
          exact pf es lk0 k hps
        · intro he o ho
          rw [hstep] at ho
          refine pe he o ?_
          rw [hps]
          exact ho
      · have hstep : iterLoop store endk (fuel + 1) (a :: as) lk = .ok es := by
          simp only [iterLoop, hps]
        refine ⟨?_, ?_, ?_⟩
        · rw [hstep]
          exact pc
        · intro es2 lk2 k2 h
          rw [hstep] at h
          cases h
        · intro he o ho
          rw [hstep] at ho
          refine pe he o ?_
          rw [hps]
          exact ho
      · have hlk : lk' = lastKeyAfter lk es := pn es lk' hps
        rcases hls : store "" lk' MaxResults with e | objs'
        · have hstep : iterLoop store endk (fuel + 1) (a :: as) lk = .failed es := by
            simp only [iterLoop, hps, hls]
          refine ⟨?_, ?_, ?_⟩
          · rw [hstep]
            exact pc
          · intro es2 lk2 k2 h
            rw [hstep] at h
            cases h
          · intro he o ho
            rw [hstep] at ho
            refine pe he o ?_
            rw [hps]
            exact ho
        · have hstep : iterLoop store endk (fuel + 1) (a :: as) lk =
              (iterLoop store endk fuel objs' lk').prepend es := by
            simp only [iterLoop, hps, hls]
          obtain ⟨ic, icf, ie⟩ := ih objs' lk'
          refine ⟨?_, ?_, ?_⟩
          · rw [hstep, IterOutcome.emitted_prepend, chainOk_append, Bool.and_eq_true]
            exact ⟨pc, by rw [← hlk]; exact ic⟩
          · intro es2 lk2 k2 h
            rw [hstep, IterOutcome.prepend_eq_fatal] at h
            obtain ⟨l2, hin, hl⟩ := h
            obtain ⟨ha, hb, hc⟩ := icf l2 lk2 k2 hin
            refine ⟨ha, hb, ?_⟩
            rw [hl, lastKeyAfter_append, ← hlk]
            exact hc
          · intro he o ho
            rw [hstep, IterOutcome.emitted_prepend] at ho
            rcases List.mem_append.mp ho with h | h
            · refine pe he o ?_
              rw [hps]
              exact h
            · exact ie he o h

/-- A backend that ignores its marker in a buggy way: asked to list after
`"b"`, it returns a page whose key `"a"` is below the marker. -/
def markerIgnoringStore : ListFn := fun _ marker _ =>
  if marker = "b" then .ok [⟨"a", 1⟩] else .ok []

/-- A well-behaved two-page backend over the keys `a`, `b`, `c`. -/
def listTwoPages : ListFn := fun _ marker _ =>
  if marker = "" then .ok [⟨"a", 1⟩, ⟨"b", 1⟩]
  else if marker = "b" then .ok [⟨"c", 1⟩]
  else .ok []

/-- Claim C2 as stated, first-page clause: on every successful run of
`Iterate`, every emitted record with a nonempty key is strictly greater
than the caller-supplied initial marker (the marker used to request the
first page). -/
def firstPageCheckedAgainstMarker : Prop :=
  ∀ store marker endk fuel out, Iterate store marker endk fuel = .ok out →
    ∀ o ∈ out.emitted, o.key ≠ "" → marker < o.key

/-- Claim C2 counterexample: `Iterate` never compares keys against the
caller-supplied marker — `lastkey` starts at `""`, not at `marker` — so a
first page lying entirely below the marker is emitted without any fatal
abort. -/
theorem c2_counterexample : ¬ firstPageCheckedAgainstMarker := by
  intro h
  have := h markerIgnoringStore "b" "" 5 (.ok [⟨"a", 1⟩])
    (by simp +decide [Iterate, iterLoop, pageStep, markerIgnoringStore, MaxResults,
          String.lt_iff_toList_lt, String.le_iff_toList_le, IterOutcome.prepend])
    ⟨"a", 1⟩ (by simp [IterOutcome.emitted]) (by decide)
  exact absurd this (by simp +decide [String.lt_iff_toList_lt])

/-- Claim C2, amended: every record `Iterate` emits has a nonempty key
strictly above the key of the immediately preceding emitted record — with
reference starting at `""` (not at the caller-supplied marker) and an
empty-string key exempt and resetting the reference; since each follow-up
page is requested with marker equal to the last emitted key, every later
page's first key is strictly above its request marker; an out-of-order
nonempty key triggers the fatal abort with the violation recorded, before
the offending record is emitted (hence before it can be replicated). -/
theorem c2_amended_ordering (store : ListFn) (marker endk : String) (fuel : Nat)
    (out : IterOutcome) (hit : Iterate store marker endk fuel = .ok out) :
    chainOk "" out.emitted = true ∧
    (∀ es lk0 k, out = .fatal es lk0 k →
        k ≠ "" ∧ k ≤ lk0 ∧ lk0 = lastKeyAfter "" es) := by
  unfold Iterate at hit
  rcases hls : store "" marker MaxResults with e | objs <;> rw [hls] at hit
  · cases hit
  · cases hit
    obtain ⟨hc, hf, _⟩ := iterLoop_spec store endk fuel objs ""
    exact ⟨hc, hf⟩

/-- Claim C2 witness: a concrete two-page run satisfies the enforced
ordering chain. -/
theorem c2_witness :
    chainOk "" (IterOutcome.ok [⟨"a", 1⟩, ⟨"b", 1⟩, ⟨"c", 1⟩]).emitted = true ∧
    (∀ es lk0 k, IterOutcome.ok [⟨"a", 1⟩, ⟨"b", 1⟩, ⟨"c", 1⟩] = .fatal es lk0 k →
        k ≠ "" ∧ k ≤ lk0 ∧ lk0 = lastKeyAfter "" es) :=
  c2_amended_ordering listTwoPages "" "" 5 (.ok [⟨"a", 1⟩, ⟨"b", 1⟩, ⟨"c", 1⟩])
    (by simp +decide [Iterate, iterLoop, pageStep, listTwoPages, MaxResults,
          String.lt_iff_toList_lt, String.le_iff_toList_le, IterOutcome.prepend])

/-- Sentinel shape of every producer stream: at most one nil sentinel, and
never before the final position. -/
theorem stream_sentinel_shape (out : IterOutcome) :
    out.stream.count none ≤ 1 ∧ ∀ x ∈ out.stream.dropLast, x ≠ none := by
  have hmap : ∀ es : List Obj, (es.map some).count (none : Option Obj) = 0 := fun es =>
    List.count_eq_zero.mpr (by simp)
  have hdrop : ∀ es : List Obj, ∀ x ∈ (es.map some).dropLast, x ≠ (none : Option Obj) := by
    intro es x hx
    have hx2 := (List.dropLast_sublist (es.map some)).subset hx
    rcases List.mem_map.mp hx2 with ⟨a, -, ha⟩
    rw [← ha]
    simp
  cases out with
  | ok es => exact ⟨by simp [IterOutcome.stream, hmap], hdrop es⟩
  | failed es =>
    constructor
    · simp [IterOutcome.stream, List.count_append, hmap]
    · intro x hx
      rw [IterOutcome.stream, List.dropLast_concat] at hx
      rcases List.mem_map.mp hx with ⟨a, -, ha⟩
      rw [← ha]
      simp
  | fatal es a b => exact ⟨by simp [IterOutcome.stream, hmap], hdrop es⟩
  | outOfFuel es => exact ⟨by simp [IterOutcome.stream, hmap], hdrop es⟩

/-- Claim C8: with a nonempty end key, every record `Iterate` emits has key
strictly below the end bound, and the stream carries at most one failure
sentinel, only in final position — exactly one, last, when a follow-up
listing call errored. -/
theorem c8_end_bound (store : ListFn) (marker endk : String) (fuel : Nat)
    (out : IterOutcome) (hend : endk ≠ "")
    (hit : Iterate store marker endk fuel = .ok out) :
    (∀ o ∈ out.emitted, o.key < endk) ∧
    (∀ es, out = .failed es → out.stream = es.map some ++ [none]) ∧
    out.stream.count none ≤ 1 ∧
    (∀ x ∈ out.stream.dropLast, x ≠ none) := by
  unfold Iterate at hit
  rcases hls : store "" marker MaxResults with e | objs <;> rw [hls] at hit
  · cases hit
  · cases hit
    obtain ⟨-, -, he⟩ := iterLoop_spec store endk fuel objs ""
    obtain ⟨hcount, hdrop2⟩ := stream_sentinel_shape (iterLoop store endk fuel objs "")
    refine ⟨he hend, ?_, hcount, hdrop2⟩
    intro es h
    rw [h]
    rfl

/-- Claim C8 witness: iterating `a, b, c` with end bound `"b"` emits only
`a`, below the bound, with a sentinel-free stream. -/
theorem c8_witness :
    (∀ o ∈ (IterOutcome.ok [⟨"a", 1⟩]).emitted, o.key < "b") ∧
    (∀ es, IterOutcome.ok [⟨"a", 1⟩] = .failed es →
        (IterOutcome.ok [⟨"a", 1⟩]).stream = es.map some ++ [none]) ∧
    (IterOutcome.ok [⟨"a", 1⟩]).stream.count none ≤ 1 ∧
    (∀ x ∈ (IterOutcome.ok [⟨"a", 1⟩]).stream.dropLast, x ≠ none) :=
  c8_end_bound listTwoPages "" "b" 5 (.ok [⟨"a", 1⟩]) (by decide)
    (by simp +decide [Iterate, iterLoop, pageStep, listTwoPages, MaxResults,
          String.lt_iff_toList_lt, String.le_iff_toList_le, IterOutcome.prepend])

/-- If the advancement loop never meets a key at or above the source key,
it drains the whole destination stream and clears `hasMore`. -/
theorem advanceDst_exhaust (srckey : String) : ∀ (dst : List Obj) (dstkey : String),
    dstkey < srckey → (∀ o ∈ dst, o.key < srckey) →
    advanceDst srckey (dst.map some) dstkey =
      ([], lastKeyAfter dstkey dst, false, false) := by
  intro dst
  induction dst with
  | nil =>
    intro dstkey h1 _
    rw [advanceDst.eq_def, if_pos h1]
    rfl
  | cons d rest ih =>
    intro dstkey h1 h2
    rw [List.map_cons, advanceDst.eq_def, if_pos h1, lastKeyAfter_cons]
    exact ih d.key (h2 d (List.mem_cons_self d rest))
      (fun o ho => h2 o (List.mem_cons_of_mem d ho))

/-- If the advancement loop meets a record whose key is not below the
source key after draining a prefix strictly below it, it stops there with
that key as the new cursor. -/
theorem advanceDst_stop (srckey : String) :
    ∀ (pre : List Obj) (d : Obj) (post : List Obj) (dstkey : String),
    dstkey < srckey → (∀ o ∈ pre, o.key < srckey) → ¬ d.key < srckey →
    advanceDst srckey ((pre ++ d :: post).map some) dstkey =
      (post.map some, d.key, true, false) := by
  intro pre
  induction pre with
  | nil =>
    intro d post dstkey h1 _ h3
    rw [List.nil_append, List.map_cons, advanceDst.eq_def, if_pos h1]
    show advanceDst srckey (post.map some) d.key = _
    rw [advanceDst.eq_def, if_neg h3]
  | cons p rest ih =>
    intro d post dstkey h1 h2 h3
    rw [List.cons_append, List.map_cons, advanceDst.eq_def, if_pos h1]
    exact ih d post p.key (h2 p (List.mem_cons_self p rest))
      (fun o ho => h2 o (List.mem_cons_of_mem p ho)) h3

/-- Once `hasMore` is false, every remaining source record is enqueued. -/
theorem doSyncLoop_noMore (src : List Obj) :
    ∀ (dst : List (Option Obj)) (dstkey : String) (f m : Nat),
    doSyncLoop (src.map some) dst dstkey false f m =
      ⟨src, f + src.length, m + src.length, src⟩ := by
  induction src with
  | nil =>
    intro dst dstkey f m
    rfl
  | cons obj rest ih =>
    intro dst dstkey f m
    rw [List.map_cons]
    simp only [doSyncLoop, Bool.false_eq_true, false_and, if_false]
    rw [if_pos (Or.inr trivial), ih dst dstkey (f + 1) (m + 1)]
    simp only [SyncResult.mk.injEq, List.length_cons]
    refine ⟨trivial, by omega, by omega, trivial⟩

/-- Unpack strict sortedness of a cons. -/
theorem strictSorted_cons {o : Obj} {rest : List Obj} (h : StrictSorted (o :: rest)) :
    (∀ x ∈ rest, o.key < x.key) ∧ StrictSorted rest := by
  rw [StrictSorted, keysOf, List.map_cons, List.pairwise_cons] at h
  exact ⟨fun x hx => h.1 x.key (List.mem_map_of_mem Obj.key hx), h.2⟩

/-- The head of a nonempty `dropWhile` residue falsifies the predicate. -/
theorem dropWhile_head_not {p : Obj → Bool} :
    ∀ {l : List Obj} {d : Obj} {post : List Obj},
    l.dropWhile p = d :: post → p d = false := by
  intro l
  induction l with
  | nil =>
    intro d post h
    cases h
  | cons a l ih =>
    intro d post h
    rw [List.dropWhile_cons] at h
    split at h
    · exact ih h
    · cases h
      rename_i hp
      simpa using hp

/-- Keys distribute over append. -/
theorem keysOf_append (l1 l2 : List Obj) :
    keysOf (l1 ++ l2) = keysOf l1 ++ keysOf l2 := by
  simp [keysOf]

/-- Key membership unfolds to a witness record. -/
theorem mem_keysOf {k : String} {l : List Obj} :
    k ∈ keysOf l ↔ ∃ o ∈ l, o.key = k := by
  simp [keysOf]

/-- The merge-join computes a sorted set difference: under strictly sorted
inputs, with the cursor either still at its initial empty value or strictly
below every remaining destination key, the enqueued objects are exactly the
source records whose key neither equals the cursor key nor occurs in the
remaining destination listing, in source order. -/
theorem doSyncLoop_diff (src : List Obj) :
    ∀ (dst : List Obj) (dstkey : String) (f m : Nat),
    StrictSorted src → StrictSorted dst →
    (dstkey = "" ∨ ∀ o ∈ dst, dstkey < o.key) →
    (doSyncLoop (src.map some) (dst.map some) dstkey true f m).todo =
      src.filter (fun o => decide (¬(o.key = dstkey ∨ o.key ∈ keysOf dst))) := by
  induction src with
  | nil =>
    intro dst dstkey f m _ _ _
    rfl
  | cons obj rest ih =>
    intro dst dstkey f m hsrc hdst hgt
    obtain ⟨hlt, hsrc2⟩ := strictSorted_cons hsrc
    rw [List.map_cons]
    simp only [doSyncLoop]
    by_cases hadv : dstkey < obj.key
    · rw [if_pos (c := True ∧ dstkey < obj.key) ⟨trivial, hadv⟩]
      rcases hdw : dst.dropWhile (fun o => decide (o.key < obj.key)) with _ | ⟨d, post⟩
      · have hsplit := List.takeWhile_append_dropWhile
            (p := fun o => decide (o.key < obj.key)) (l := dst)
        rw [hdw, List.append_nil] at hsplit
        have hall : ∀ o ∈ dst, o.key < obj.key := by
          intro o ho
          rw [← hsplit] at ho
          simpa using List.mem_takeWhile_imp ho
        rw [advanceDst_exhaust obj.key dst dstkey hadv hall,
          if_neg Bool.false_ne_true, if_pos (Or.inr rfl)]
        show obj :: (doSyncLoop (rest.map some) []
            (lastKeyAfter dstkey dst) false (f + 1) (m + 1)).todo = _
        rw [doSyncLoop_noMore rest [] (lastKeyAfter dstkey dst) (f + 1) (m + 1)]
        have hobjP : ¬(obj.key = dstkey ∨ obj.key ∈ keysOf dst) := by
          push_neg
          refine ⟨ne_of_gt hadv, ?_⟩
          intro hmem
          obtain ⟨o, ho, hk⟩ := mem_keysOf.mp hmem
          have := hall o ho
          rw [hk] at this
          exact absurd this (lt_irrefl obj.key)
        rw [List.filter_cons_of_pos (by simp only [decide_eq_true_eq]; exact hobjP)]
        have hrest : rest.filter
            (fun o => decide (¬(o.key = dstkey ∨ o.key ∈ keysOf dst))) = rest := by
          refine List.filter_eq_self.mpr ?_
          intro x hx
          simp only [decide_eq_true_eq]
          push_neg
          have hox : obj.key < x.key := hlt x hx
          refine ⟨ne_of_gt (lt_trans hadv hox), ?_⟩
          intro hmem
          obtain ⟨o, ho, hk⟩ := mem_keysOf.mp hmem
          have := hall o ho
          rw [hk] at this
          exact absurd (lt_trans this hox) (lt_irrefl x.key)
        rw [hrest]
      · have hsplit := List.takeWhile_append_dropWhile
            (p := fun o => decide (o.key < obj.key)) (l := dst)
        rw [hdw] at hsplit
        have hpre : ∀ o ∈ dst.takeWhile (fun o => decide (o.key < obj.key)),
            o.key < obj.key := by
          intro o ho
          simpa using List.mem_takeWhile_imp ho
        have hd : ¬ d.key < obj.key := by
          simpa using dropWhile_head_not hdw
        have hadvEq : advanceDst obj.key (dst.map some) dstkey =
            (post.map some, d.key, true, false) := by
          conv_lhs => rw [← hsplit]
          exact advanceDst_stop obj.key _ d post dstkey hadv hpre hd
        have hdst2 : StrictSorted
            (dst.takeWhile (fun o => decide (o.key < obj.key)) ++ d :: post) := by
          rw [hsplit]
          exact hdst
        rw [StrictSorted, keysOf_append, List.pairwise_append] at hdst2
        obtain ⟨-, hp2, -⟩ := hdst2
        rw [show keysOf (d :: post) = d.key :: keysOf post from rfl,
          List.pairwise_cons] at hp2
        obtain ⟨hdpost, hpostPar⟩ := hp2
        have hpostlt : ∀ o ∈ post, d.key < o.key :=
          fun o ho => hdpost o.key (List.mem_map_of_mem Obj.key ho)
        have hmemdst : ∀ k : String, k ∈ keysOf dst ↔
            (k ∈ keysOf (dst.takeWhile (fun o => decide (o.key < obj.key))) ∨
             k = d.key ∨ k ∈ keysOf post) := by
          intro k
          conv_lhs => rw [← hsplit]
          rw [keysOf_append, List.mem_append,
            show keysOf (d :: post) = d.key :: keysOf post from rfl, List.mem_cons]
        have hiff : ∀ x ∈ rest, ((x.key = d.key ∨ x.key ∈ keysOf post) ↔
            (x.key = dstkey ∨ x.key ∈ keysOf dst)) := by
          intro x hx
          have hox : obj.key < x.key := hlt x hx
          constructor
          · rintro (h | h)
            · exact Or.inr ((hmemdst x.key).mpr (Or.inr (Or.inl h)))
            · exact Or.inr ((hmemdst x.key).mpr (Or.inr (Or.inr h)))
          · rintro (h | h)
            · have hx2 : dstkey < x.key := lt_trans hadv hox
              rw [h] at hx2
              exact absurd hx2 (lt_irrefl dstkey)
            · rcases (hmemdst x.key).mp h with h2 | h2 | h2
              · obtain ⟨o, ho, hk⟩ := mem_keysOf.mp h2
                have := hpre o ho
                rw [hk] at this
                exact absurd (lt_trans this hox) (lt_irrefl x.key)
              · exact Or.inl h2
              · exact Or.inr h2
        rw [hadvEq, if_neg Bool.false_ne_true]
        by_cases hod : obj.key < d.key
        · rw [if_pos (Or.inl hod)]
          show obj :: (doSyncLoop (rest.map some) (post.map some)
              d.key true (f + 1) (m + 1)).todo = _
          rw [ih post d.key (f + 1) (m + 1) hsrc2 hpostPar (Or.inr hpostlt)]
          have hobjP : ¬(obj.key = dstkey ∨ obj.key ∈ keysOf dst) := by
            push_neg
            refine ⟨ne_of_gt hadv, ?_⟩
            intro hmem
            rcases (hmemdst obj.key).mp hmem with h2 | h2 | h2
            · obtain ⟨o, ho, hk⟩ := mem_keysOf.mp h2
              have := hpre o ho
              rw [hk] at this
              exact absurd this (lt_irrefl obj.key)
            · rw [h2] at hod
              exact absurd hod (lt_irrefl d.key)
            · obtain ⟨o, ho, hk⟩ := mem_keysOf.mp h2
              have := hpostlt o ho
              rw [hk] at this
              exact absurd (lt_trans hod this) (lt_irrefl obj.key)
          rw [List.filter_cons_of_pos (by simp only [decide_eq_true_eq]; exact hobjP)]
          congr 1
          refine List.filter_congr ?_
          intro x hx
          exact decide_eq_decide.mpr (not_congr (hiff x hx))
        · have heq : obj.key = d.key := le_antisymm (not_lt.mp hd) (not_lt.mp hod)
          rw [if_neg (by simp [hod])]
          show (doSyncLoop (rest.map some) (post.map some)
              d.key true (f + 1) m).todo = _
          rw [ih post d.key (f + 1) m hsrc2 hpostPar (Or.inr hpostlt)]
          have hobjP : obj.key = dstkey ∨ obj.key ∈ keysOf dst :=
            Or.inr ((hmemdst obj.key).mpr (Or.inr (Or.inl heq)))
          rw [List.filter_cons_of_neg
            (by simp only [decide_eq_true_eq]; exact not_not_intro hobjP)]
          refine List.filter_congr ?_
          intro x hx
          exact decide_eq_decide.mpr (not_congr (hiff x hx))
    · rw [if_neg (c := True ∧ dstkey < obj.key) (fun h => hadv h.2),
        if_neg Bool.false_ne_true]
      by_cases hlt2 : obj.key < dstkey
      · rcases hgt with hgt | hgt
        · rw [hgt] at hlt2
          exact absurd hlt2 (String.not_lt_empty _)
        · rw [if_pos (Or.inl hlt2)]
          show obj :: (doSyncLoop (rest.map some) (dst.map some)
              dstkey true (f + 1) (m + 1)).todo = _
          rw [ih dst dstkey (f + 1) (m + 1) hsrc2 hdst (Or.inr hgt)]
          have hobjP : ¬(obj.key = dstkey ∨ obj.key ∈ keysOf dst) := by
            push_neg
            refine ⟨ne_of_lt hlt2, ?_⟩
            intro hmem
            obtain ⟨o, ho, hk⟩ := mem_keysOf.mp hmem
            have := hgt o ho
            rw [hk] at this
            exact absurd (lt_trans hlt2 this) (lt_irrefl obj.key)
          rw [List.filter_cons_of_pos (by simp only [decide_eq_true_eq]; exact hobjP)]
      · have heq : obj.key = dstkey := le_antisymm (not_lt.mp hadv) (not_lt.mp hlt2)
        rw [if_neg (by simp [hlt2])]
        show (doSyncLoop (rest.map some) (dst.map some)
            dstkey true (f + 1) m).todo = _
        rw [ih dst dstkey (f + 1) m hsrc2 hdst hgt]
        rw [List.filter_cons_of_neg
          (by simp only [decide_eq_true_eq]; exact not_not_intro (Or.inl heq))]

/-- Claim C1 as stated: for every pair of finite, strictly sorted,
failure-free listings, `doSync` enqueues exactly the source records whose
keys are absent from the destination listing, in source order. -/
def diffEmitsExactlyMissing : Prop :=
  ∀ src dst : List Obj, StrictSorted src → StrictSorted dst →
    (doSync (src.map some) (dst.map some)).todo =
      src.filter (fun o => decide (¬ o.key ∈ keysOf dst))

/-- Claim C1 counterexample: a source listing consisting of the single
record with the empty key, against an empty destination, enqueues nothing —
although the empty key is absent from the destination — because the
empty key never exceeds the initial `dstkey = ""` cursor. -/
theorem c1_counterexample : ¬ diffEmitsExactlyMissing := by
  intro h
  have := h [⟨"", 1⟩] [] (by simp [StrictSorted, keysOf]) (by simp [StrictSorted, keysOf])
  have h0 : (doSync ([(⟨"", 1⟩ : Obj)].map some) (([] : List Obj).map some)).todo = [] := by
    simp [doSync, doSyncLoop]
  rw [h0] at this
  simp [keysOf] at this

/-- Claim C1, amended: for every pair of finite, strictly sorted,
failure-free listings in which every source key is nonempty, `doSync`
enqueues exactly the source records whose keys are absent from the
destination listing, in source order.  (A source record with the empty
key would be silently treated as present, per claim C10.) -/
theorem c1_amended_diff (src dst : List Obj)
    (hsrc : StrictSorted src) (hdst : StrictSorted dst)
    (hne : ∀ o ∈ src, o.key ≠ "") :
    (doSync (src.map some) (dst.map some)).todo =
      src.filter (fun o => decide (¬ o.key ∈ keysOf dst)) := by
  rw [doSync, doSyncLoop_diff src dst "" 0 0 hsrc hdst (Or.inl rfl)]
  refine List.filter_congr ?_
  intro x hx
  refine decide_eq_decide.mpr (not_congr ?_)
  constructor
  · rintro (h | h)
    · exact absurd h (hne x hx)
    · exact h
  · exact Or.inr

/-- Claim C1 witness: sources `a, b, c` against destination `b` enqueue
exactly `a` and `c`, in source order. -/
theorem c1_witness :
    (doSync ([⟨"a", 1⟩, ⟨"b", 1⟩, ⟨"c", 1⟩].map some) ([⟨"b", 2⟩].map some)).todo =
      [⟨"a", 1⟩, ⟨"b", 1⟩, ⟨"c", 1⟩].filter
        (fun o => decide (¬ o.key ∈ keysOf [⟨"b", 2⟩])) :=
  c1_amended_diff [⟨"a", 1⟩, ⟨"b", 1⟩, ⟨"c", 1⟩] [⟨"b", 2⟩]
    (by simp +decide [StrictSorted, keysOf, String.lt_iff_toList_lt])
    (by simp [StrictSorted, keysOf])
    (by intro o ho; fin_cases ho <;> decide)
